import Mathlib

/-!
# Verification of the QuickLink URL-shortener core (server.js)

A shallow embedding of the core of `src/url-shortener-service/server.js`:
the `ShortcodeGenerator` class, the `MemoryStore` class (record map,
per-record analytics log, hot cache), and the create/redirect handler
fragments that the specification's component contracts describe.

Modelling conventions:
* JavaScript `Map` objects (insertion-ordered) are association lists
  `List (String × α)`; `Map.get/has/set/delete` become `mapGet`,
  `mapHas`, `mapSet`, `mapDelete` with the same observable behaviour
  (`set` on a present key keeps its position, on a fresh key appends;
  iteration order is list order; `keys().next().value` is the head key).
* `Date` values are milliseconds since the epoch, as `Nat`; the
  JavaScript comparisons `a <= b` / `a > b` on dates become `≤` / `<`.
* `Math.random()` draws are modelled by an explicit stream of natural
  numbers; `Math.floor(Math.random() * n)` is `r i % n`, which ranges
  over exactly the same indices.
-/

set_option autoImplicit false

namespace QuickLink

/-- A stored URL record, as built by `MemoryStore.storeUrl`. -/
structure UrlRecord where
  shortcode : String
  originalUrl : String
  description : String
  createdAt : Nat
  expiresAt : Nat
  isActive : Bool
  clickCount : Nat
  lastAccessed : Option Nat
deriving Repr, DecidableEq

/-- A click event, as built inside `MemoryStore.recordClick`. -/
structure ClickEvent where
  timestamp : Nat
  ip : String
  userAgent : String
  referer : String
  country : String
deriving Repr, DecidableEq

/-- The optional metadata argument of `MemoryStore.recordClick`
(`none` models an absent / falsy JavaScript field). -/
structure ClickMeta where
  ip : Option String
  userAgent : Option String
  referer : Option String
deriving Repr, DecidableEq

deriving instance DecidableEq for Except

/-! ## JavaScript `Map` as an association list -/

/-- `Map.prototype.get`: the value of the first (in a well-formed map,
only) entry carrying the key. -/
def mapGet {α : Type} (m : List (String × α)) (k : String) : Option α :=
  match m with
  | [] => none
  | p :: t => if p.1 = k then some p.2 else mapGet t k

/-- `Map.prototype.has`. -/
def mapHas {α : Type} (m : List (String × α)) (k : String) : Bool :=
  match m with
  | [] => false
  | p :: t => p.1 = k || mapHas t k

/-- `Map.prototype.set`: overwrite in place when the key is present,
append when it is fresh (JavaScript `Map` insertion-order semantics). -/
def mapSet {α : Type} (m : List (String × α)) (k : String) (v : α) :
    List (String × α) :=
  match m with
  | [] => [(k, v)]
  | p :: t => if p.1 = k then (k, v) :: t else p :: mapSet t k v

/-- `Map.prototype.delete` (ignoring the returned boolean). -/
def mapDelete {α : Type} (m : List (String × α)) (k : String) :
    List (String × α) :=
  match m with
  | [] => []
  | p :: t => if p.1 = k then mapDelete t k else p :: mapDelete t k

/-- Keys of the map, in insertion order. -/
def mapKeys {α : Type} (m : List (String × α)) : List String :=
  m.map Prod.fst


/-! ## ShortcodeGenerator -/

/-- `ShortcodeGenerator.charset`: the full 62-character alphanumeric set. -/
def charset : String :=
  "abcdefghijklmnopqrstuvwxyzABCDEFGHIJKLMNOPQRSTUVWXYZ0123456789"

/-- `ShortcodeGenerator.readableCharset`, exactly as written in the source. -/
def readableCharset : String :=
  "abcdefghijkmnpqrstuvwxyzABCDEFGHJKLMNPQRSTUVWXYZ23456789"

/-- The readable character set as the specification describes it: the
full 62-character set with exactly the five visually ambiguous
characters 0, O, 1, l, I removed. Used only to compare the source's
`readableCharset` against the specification's words. -/
def specReadableCharset : String :=
  String.mk (charset.data.filter
    (fun c => !(['0', 'O', '1', 'l', 'I'].contains c)))

/-- `ShortcodeGenerator.generateRandom`: draw `len` characters from the
chosen charset. The stream `r` models the successive values of
`Math.floor(Math.random() * chars.length)`; taking `r i % chars.length`
yields exactly the same range of indices. -/
def generateRandom (r : Nat → Nat) (len : Nat) (readable : Bool) : String :=
  let chars := if readable then readableCharset else charset
  String.mk ((List.range len).map
    (fun i => chars.data.getD (r i % chars.data.length) 'a'))

/-- The retry loop of `ShortcodeGenerator.generate`, from loop iteration
`a` (1-based, the source's `attempts` counter). `draw n` is the candidate
the configured strategy produces on the `n`-th iteration, `fb` is the
`generateRandom(length + 2, readable)` fallback draw, and `p` is the
`existsCallback` collision predicate. Returns the chosen shortcode
together with the total number of predicate calls made. -/
def generateGo (draw : Nat → String) (fb : String) (p : String → Bool)
    (maxAttempts a : Nat) : String × Nat :=
  let c := draw a
  if p c = false then (c, a)
  else if maxAttempts ≤ a then (fb, a)
  else generateGo draw fb p maxAttempts (a + 1)
termination_by maxAttempts - a
decreasing_by
  simp_wf
  omega

/-- `ShortcodeGenerator.generate`: when no `existsCallback` is supplied
the first candidate is returned unchecked; otherwise the retry loop runs
starting at attempt 1. -/
def generate (draw : Nat → String) (fb : String)
    (existsCallback : Option (String → Bool)) (maxAttempts : Nat) :
    String × Nat :=
  match existsCallback with
  | none => (draw 1, 0)
  | some p => generateGo draw fb p maxAttempts 1

/-! ## MemoryStore -/

/-- The `MemoryStore` instance state: the three keyed collections and
the `stats` counters. -/
structure MemoryStore where
  urls : List (String × UrlRecord)
  analytics : List (String × List ClickEvent)
  cache : List (String × UrlRecord)
  cacheSize : Nat
  statsTotalUrls : Nat
  statsTotalClicks : Nat
  statsCreatedToday : Nat
  statsLastCleanup : Nat
deriving Repr, DecidableEq

/-- The `MemoryStore` constructor, at construction time `t`. -/
def initStore (t : Nat) : MemoryStore :=
  { urls := [], analytics := [], cache := [], cacheSize := 1000,
    statsTotalUrls := 0, statsTotalClicks := 0, statsCreatedToday := 0,
    statsLastCleanup := t }

/-- The record literal built inside `MemoryStore.storeUrl`
(`expiresIn` is in minutes; times are in milliseconds). -/
def mkRecord (code url desc : String) (expiresIn now : Nat) : UrlRecord :=
  { shortcode := code, originalUrl := url, description := desc,
    createdAt := now, expiresAt := now + expiresIn * 60 * 1000,
    isActive := true, clickCount := 0, lastAccessed := none }

/-- `MemoryStore.storeUrl`: unconditionally store a fresh record and an
empty analytics log, bump the counters, and return the record. -/
def storeUrl (s : MemoryStore) (code url desc : String)
    (expiresIn now : Nat) : MemoryStore × UrlRecord :=
  let record := mkRecord code url desc expiresIn now
  ({ s with
      urls := mapSet s.urls code record,
      analytics := mapSet s.analytics code [],
      statsTotalUrls := s.statsTotalUrls + 1,
      statsCreatedToday := s.statsCreatedToday + 1 }, record)

/-- `MemoryStore._addToCache`: evict the first-inserted key when the
cache is at capacity, then insert the snapshot. -/
def addToCache (s : MemoryStore) (code : String) (r : UrlRecord) :
    MemoryStore :=
  let cache :=
    if s.cacheSize ≤ s.cache.length then
      match s.cache with
      | [] => s.cache
      | e :: _ => mapDelete s.cache e.1
    else s.cache
  { s with cache := mapSet cache code r }

/-- The authoritative-map half of `MemoryStore.getUrl` (everything after
the hot-cache probe): absent records yield `null`; expired records are
lazily marked inactive and yield `null`; hot live records are copied
into the cache. -/
def getUrlFromRecord (s : MemoryStore) (code : String) (now : Nat) :
    MemoryStore × Option UrlRecord :=
  match mapGet s.urls code with
  | none => (s, none)
  | some record =>
    if record.expiresAt ≤ now then
      ({ s with urls := mapSet s.urls code { record with isActive := false } },
        none)
    else if 5 < record.clickCount then
      (addToCache s code record, some record)
    else (s, some record)

/-- `MemoryStore.getUrl`: probe the hot cache first (lazily evicting an
expired snapshot), then consult the record map. -/
def getUrl (s : MemoryStore) (code : String) (now : Nat) :
    MemoryStore × Option UrlRecord :=
  match mapGet s.cache code with
  | some cached =>
    if now < cached.expiresAt then (s, some cached)
    else getUrlFromRecord { s with cache := mapDelete s.cache code } code now
  | none => getUrlFromRecord s code now

/-- `MemoryStore._getCountryFromIp`: the static lookup table. -/
def getCountryFromIp (ip : Option String) : String :=
  match ip with
  | none => "Unknown"
  | some i =>
    if i = "" then "Unknown"
    else if i = "unknown" then "Unknown"
    else if i = "127.0.0.1" then "Local"
    else if i = "::1" then "Local"
    else "Unknown"

/-- A JavaScript falsy-default: `value || default` for optional strings. -/
def orDefault (o : Option String) (d : String) : String :=
  match o with
  | none => d
  | some v => if v = "" then d else v

/-- The `clickData` literal built inside `MemoryStore.recordClick`. -/
def mkClickEvent (m : ClickMeta) (now : Nat) : ClickEvent :=
  { timestamp := now,
    ip := orDefault m.ip "unknown",
    userAgent := orDefault m.userAgent "unknown",
    referer := orDefault m.referer "direct",
    country := getCountryFromIp m.ip }

/-- The ring-buffer cap applied to a just-appended analytics log:
`if (analytics.length > 100) analytics.splice(0, analytics.length - 100)`. -/
def capLog {α : Type} (l : List α) : List α :=
  if 100 < l.length then l.drop (l.length - 100) else l

/-- `MemoryStore.recordClick`: false for an unknown code; otherwise bump
the click count and last-accessed time, append the click event (capped
at 100), refresh an existing cache snapshot, and return true. Note that
expiry is never consulted. -/
def recordClick (s : MemoryStore) (code : String) (m : ClickMeta)
    (now : Nat) : MemoryStore × Bool :=
  match mapGet s.urls code with
  | none => (s, false)
  | some record =>
    let record' := { record with
      clickCount := record.clickCount + 1, lastAccessed := some now }
    let clickData := mkClickEvent m now
    let log := (mapGet s.analytics code).getD []
    let log' := capLog (log ++ [clickData])
    let s' := { s with
      urls := mapSet s.urls code record',
      statsTotalClicks := s.statsTotalClicks + 1,
      analytics := mapSet s.analytics code log' }
    if mapHas s'.cache code then
      ({ s' with cache := mapSet s'.cache code record' }, true)
    else (s', true)

/-- `MemoryStore.exists` (named `existsCode` here because `exists` is a
reserved word in Lean): pure key presence, with no expiry check. -/
def existsCode (s : MemoryStore) (code : String) : Bool :=
  mapHas s.urls code

/-- `MemoryStore.cleanupExpiredUrls`: delete every record whose
`expiresAt ≤ now`, along with its analytics log and cache entry, and
return how many records were removed. -/
def cleanupExpiredUrls (s : MemoryStore) (now : Nat) : MemoryStore × Nat :=
  let expired := s.urls.filter (fun p => decide (p.2.expiresAt ≤ now))
  let expiredCodes := expired.map Prod.fst
  ({ s with
      urls := s.urls.filter (fun p => decide (now < p.2.expiresAt)),
      analytics := s.analytics.filter (fun p => !(expiredCodes.contains p.1)),
      cache := s.cache.filter (fun p => !(expiredCodes.contains p.1)),
      statsLastCleanup := now }, expired.length)

/-- The custom-shortcode branch of the `POST /api/urls` handler: the
specification's `create` contract. It rejects a shortcode already
present (`memoryStore.exists` pre-check, surfaced as a 409 conflict)
and otherwise persists via `storeUrl`. -/
def createUrl (s : MemoryStore) (code url desc : String)
    (expiresIn now : Nat) : MemoryStore × Except String UrlRecord :=
  if existsCode s code then (s, Except.error "Shortcode is already taken")
  else
    let res := storeUrl s code url desc expiresIn now
    (res.1, Except.ok res.2)

/-- A sequence of `recordClick` calls on one shortcode, each with its
own metadata and timestamp. -/
def recordClicks (s : MemoryStore) (code : String)
    (ms : List (ClickMeta × Nat)) : MemoryStore :=
  ms.foldl (fun st m => (recordClick st code m.1 m.2).1) s

/-! ## Reachable store states -/

/-- Store states reachable within one process run, through the public
operations the HTTP layer invokes: construction, the create handler,
expiry-aware lookup, click recording, and the sweeper. Each step may
happen at an arbitrary time. -/
inductive Reachable : MemoryStore → Prop where
  | init (t : Nat) : Reachable (initStore t)
  | create (s : MemoryStore) (code url desc : String) (expiresIn now : Nat) :
      Reachable s → Reachable (createUrl s code url desc expiresIn now).1
  | get (s : MemoryStore) (code : String) (now : Nat) :
      Reachable s → Reachable (getUrl s code now).1
  | click (s : MemoryStore) (code : String) (m : ClickMeta) (now : Nat) :
      Reachable s → Reachable (recordClick s code m now).1
  | sweep (s : MemoryStore) (now : Nat) :
      Reachable s → Reachable (cleanupExpiredUrls s now).1

/-! ## Invariants -/

/-- Every key of the hot cache is also a key of the authoritative
record map. -/
def CacheSubset (s : MemoryStore) : Prop :=
  ∀ code, mapHas s.cache code = true → mapHas s.urls code = true

/-- The internal well-formedness invariant of a `MemoryStore`:
duplicate-free keys in each collection, every cache snapshot backed by
a record with the same expiry, and every analytics log within the
ring-buffer bound. -/
structure Inv (s : MemoryStore) : Prop where
  urlsNodup : (mapKeys s.urls).Nodup
  analyticsNodup : (mapKeys s.analytics).Nodup
  cacheNodup : (mapKeys s.cache).Nodup
  cacheCons : ∀ code r, mapGet s.cache code = some r →
    ∃ u, mapGet s.urls code = some u ∧ u.expiresAt = r.expiresAt
  logBound : ∀ code l, mapGet s.analytics code = some l → l.length ≤ 100

/-! ## Properties of the Map model -/

section MapLemmas

variable {α : Type}

theorem mapHas_iff_mapGet {m : List (String × α)} {k : String} :
    mapHas m k = true ↔ ∃ v, mapGet m k = some v := by
  induction m with
  | nil => simp [mapHas, mapGet]
  | cons p t ih =>
    by_cases h : p.1 = k
    · simp [mapHas, mapGet, h]
    · simp [mapHas, mapGet, h, ih]

theorem mapGet_eq_none_of_not_has {m : List (String × α)} {k : String}
    (h : mapHas m k = false) : mapGet m k = none := by
  cases hg : mapGet m k with
  | none => rfl
  | some v =>
    have : mapHas m k = true := mapHas_iff_mapGet.2 ⟨v, hg⟩
    rw [h] at this
    exact absurd this (by simp)

theorem mapHas_of_mapGet {m : List (String × α)} {k : String} {v : α}
    (h : mapGet m k = some v) : mapHas m k = true :=
  mapHas_iff_mapGet.2 ⟨v, h⟩

theorem mapGet_set_self {m : List (String × α)} {k : String} {v : α} :
    mapGet (mapSet m k v) k = some v := by
  induction m with
  | nil => simp [mapSet, mapGet]
  | cons p t ih =>
    by_cases h : p.1 = k
    · simp [mapSet, mapGet, h]
    · simp [mapSet, mapGet, h, ih]

theorem mapGet_set_ne {m : List (String × α)} {k k' : String} {v : α}
    (h : k' ≠ k) : mapGet (mapSet m k v) k' = mapGet m k' := by
  have h2 : ¬ k = k' := fun e => h e.symm
  induction m with
  | nil => simp [mapSet, mapGet, h2]
  | cons p t ih =>
    by_cases hp : p.1 = k
    · subst hp
      simp [mapSet, mapGet, h2]
    · by_cases hq : p.1 = k'
      · simp [mapSet, mapGet, hp, hq, h]
      · simp [mapSet, mapGet, hp, hq, ih]

theorem mapGet_delete_self {m : List (String × α)} {k : String} :
    mapGet (mapDelete m k) k = none := by
  induction m with
  | nil => simp [mapDelete, mapGet]
  | cons p t ih =>
    by_cases h : p.1 = k
    · simp [mapDelete, h, ih]
    · simp [mapDelete, mapGet, h, ih]

theorem mapGet_delete_ne {m : List (String × α)} {k k' : String}
    (h : k' ≠ k) : mapGet (mapDelete m k) k' = mapGet m k' := by
  have h2 : ¬ k = k' := fun e => h e.symm
  induction m with
  | nil => simp [mapDelete, mapGet]
  | cons p t ih =>
    by_cases hp : p.1 = k
    · subst hp
      simp [mapDelete, mapGet, h2, ih]
    · by_cases hq : p.1 = k'
      · simp [mapDelete, mapGet, hp, hq, h]
      · simp [mapDelete, mapGet, hp, hq, ih]

theorem mapHas_set {m : List (String × α)} {k k' : String} {v : α} :
    mapHas (mapSet m k v) k' = (mapHas m k' || decide (k' = k)) := by
  by_cases h : k' = k
  · subst h
    simp [mapHas_iff_mapGet, mapGet_set_self]
  · simp only [decide_eq_false h, Bool.or_false]
    by_cases hm : mapHas m k'
    · rw [hm]
      rcases mapHas_iff_mapGet.1 hm with ⟨v', hv⟩
      exact mapHas_iff_mapGet.2 ⟨v', by rw [mapGet_set_ne h]; exact hv⟩
    · have hm' : mapHas m k' = false := by simpa using hm
      rw [hm']
      by_cases hs : mapHas (mapSet m k v) k'
      · exfalso
        rcases mapHas_iff_mapGet.1 hs with ⟨v', hv⟩
        rw [mapGet_set_ne h] at hv
        have := mapGet_eq_none_of_not_has hm'
        rw [this] at hv
        exact Option.noConfusion hv
      · simpa using hs

theorem mapHas_eq_mem_keys {m : List (String × α)} {k : String} :
    mapHas m k = true ↔ k ∈ mapKeys m := by
  induction m with
  | nil => simp [mapHas, mapKeys]
  | cons p t ih =>
    simp only [mapHas, mapKeys, List.map_cons, List.mem_cons,
      Bool.or_eq_true, decide_eq_true_eq]
    constructor
    · rintro (h | h)
      · exact Or.inl h.symm
      · exact Or.inr (by simpa [mapKeys] using ih.1 h)
    · rintro (h | h)
      · exact Or.inl h.symm
      · exact Or.inr (ih.2 (by simpa [mapKeys] using h))

theorem mapKeys_set_of_has {m : List (String × α)} {k : String} {v : α}
    (h : mapHas m k = true) : mapKeys (mapSet m k v) = mapKeys m := by
  induction m with
  | nil => simp [mapHas] at h
  | cons p t ih =>
    by_cases hp : p.1 = k
    · simp [mapSet, mapKeys, hp]
    · have ht : mapHas t k = true := by
        simp only [mapHas, hp, decide_eq_false hp, Bool.false_or] at h
        exact h
      simp [mapSet, mapKeys, hp]
      simpa [mapKeys] using ih ht

theorem mapKeys_set_of_not_has {m : List (String × α)} {k : String} {v : α}
    (h : mapHas m k = false) : mapKeys (mapSet m k v) = mapKeys m ++ [k] := by
  induction m with
  | nil => simp [mapSet, mapKeys]
  | cons p t ih =>
    have hp : ¬ p.1 = k := by
      intro e
      simp [mapHas, e] at h
    have ht : mapHas t k = false := by
      simp only [mapHas, decide_eq_false hp, Bool.false_or] at h
      exact h
    simp [mapSet, mapKeys, hp]
    simpa [mapKeys] using ih ht

theorem mapKeys_nodup_set {m : List (String × α)} {k : String} {v : α}
    (h : (mapKeys m).Nodup) : (mapKeys (mapSet m k v)).Nodup := by
  by_cases hm : mapHas m k
  · rw [mapKeys_set_of_has hm]; exact h
  · have hm' : mapHas m k = false := by simpa using hm
    rw [mapKeys_set_of_not_has hm']
    have hk : k ∉ mapKeys m := by
      intro hmem
      have : mapHas m k = true := mapHas_eq_mem_keys.2 hmem
      rw [hm'] at this
      exact absurd this (by simp)
    simp [List.nodup_append, h, hk]

theorem mapDelete_sublist {m : List (String × α)} {k : String} :
    (mapDelete m k).Sublist m := by
  induction m with
  | nil => simp [mapDelete]
  | cons p t ih =>
    by_cases h : p.1 = k
    · simp only [mapDelete, if_pos h]
      exact ih.cons p
    · simp only [mapDelete, if_neg h]
      exact ih.cons₂ p

theorem mapKeys_delete_sublist {m : List (String × α)} {k : String} :
    (mapKeys (mapDelete m k)).Sublist (mapKeys m) :=
  List.Sublist.map Prod.fst mapDelete_sublist

theorem mapKeys_filter_sublist {m : List (String × α)} {f : String × α → Bool} :
    (mapKeys (m.filter f)).Sublist (mapKeys m) :=
  List.Sublist.map Prod.fst (List.filter_sublist m)

/-- With duplicate-free keys, looking a key up in a filtered map finds
exactly the original entry, provided it survives the filter. -/
theorem mapGet_filter_of_nodup {m : List (String × α)} {f : String × α → Bool}
    {k : String} {v : α} (hnd : (mapKeys m).Nodup)
    (hv : mapGet m k = some v) (hf : f (k, v) = true) :
    mapGet (m.filter f) k = some v := by
  induction m with
  | nil => simp [mapGet] at hv
  | cons p t ih =>
    by_cases hp : p.1 = k
    · have hpv : p.2 = v := by
        simp [mapGet, hp] at hv
        exact hv
      have hpe : p = (k, v) := by
        cases p with
        | mk a b =>
          simp only at hp hpv
          rw [hp, hpv]
      subst hpe
      rw [List.filter_cons, if_pos hf]
      simp [mapGet]
    · have ht : mapGet t k = some v := by
        simpa [mapGet, hp] using hv
      have hnd' : (mapKeys t).Nodup := by
        simp only [mapKeys, List.map_cons, List.nodup_cons] at hnd
        exact hnd.2
      have := ih hnd' ht
      rw [List.filter_cons]
      by_cases hfp : f p = true
      · rw [if_pos hfp]
        simpa [mapGet, hp] using this
      · rw [if_neg hfp]
        exact this

/-- With duplicate-free keys, an entry whose key survives a key-based
filter is unchanged by it; an entry dropped by the filter is gone. -/
theorem mapGet_filter_eq_none {m : List (String × α)} {f : String × α → Bool}
    {k : String} (hk : ∀ v, f (k, v) = false) :
    mapGet (m.filter f) k = none := by
  induction m with
  | nil => simp [mapGet]
  | cons p t ih =>
    rw [List.filter_cons]
    by_cases hfp : f p = true
    · rw [if_pos hfp]
      by_cases hp : p.1 = k
      · exfalso
        have hpe : p = (k, p.2) := by
          cases p with
          | mk a b => simp only at hp; rw [hp]
        rw [hpe] at hfp
        rw [hk p.2] at hfp
        exact Bool.noConfusion hfp
      · simpa [mapGet, hp] using ih
    · rw [if_neg hfp]
      exact ih

end MapLemmas

section MoreMapLemmas

variable {α : Type}

theorem mapGet_some_mem {m : List (String × α)} {k : String} {v : α}
    (h : mapGet m k = some v) : (k, v) ∈ m := by
  induction m with
  | nil => simp [mapGet] at h
  | cons p t ih =>
    by_cases hp : p.1 = k
    · have hv : p.2 = v := by
        simp [mapGet, hp] at h
        exact h
      have : p = (k, v) := by
        cases p with
        | mk a b => simp only at hp hv; rw [hp, hv]
      rw [this]
      exact List.mem_cons_self _ _
    · have : mapGet t k = some v := by simpa [mapGet, hp] using h
      exact List.mem_cons_of_mem _ (ih this)

theorem mem_mapHas {m : List (String × α)} {k : String} {v : α}
    (h : (k, v) ∈ m) : mapHas m k = true := by
  induction m with
  | nil => simp at h
  | cons p t ih =>
    rcases List.mem_cons.1 h with h | h
    · rw [← h]
      simp [mapHas]
    · simp [mapHas, ih h]

/-- With duplicate-free keys, lookup in a filtered map succeeds exactly
when the original entry both exists and survives the filter. -/
theorem mapGet_filter_iff {m : List (String × α)} {f : String × α → Bool}
    {k : String} {v : α} (hnd : (mapKeys m).Nodup) :
    mapGet (m.filter f) k = some v ↔
      (mapGet m k = some v ∧ f (k, v) = true) := by
  constructor
  · intro h
    induction m with
    | nil => simp [mapGet] at h
    | cons p t ih =>
      have hnd' : (mapKeys t).Nodup := by
        simp only [mapKeys, List.map_cons, List.nodup_cons] at hnd
        exact hnd.2
      have hnk : p.1 ∉ mapKeys t := by
        simp only [mapKeys, List.map_cons, List.nodup_cons] at hnd
        exact hnd.1
      rw [List.filter_cons] at h
      by_cases hf : f p = true
      · rw [if_pos hf] at h
        by_cases hp : p.1 = k
        · have hv : p.2 = v := by
            simp [mapGet, hp] at h
            exact h
          have hpe : p = (k, v) := by
            cases p with
            | mk a b => simp only at hp hv; rw [hp, hv]
          subst hpe
          exact ⟨by simp [mapGet], hf⟩
        · have h' : mapGet (t.filter f) k = some v := by
            simpa [mapGet, hp] using h
          rcases ih hnd' h' with ⟨h1, h2⟩
          exact ⟨by simpa [mapGet, hp] using h1, h2⟩
      · rw [if_neg hf] at h
        rcases ih hnd' h with ⟨h1, h2⟩
        by_cases hp : p.1 = k
        · exfalso
          have : mapHas t k = true := mapHas_of_mapGet h1
          have : k ∈ mapKeys t := mapHas_eq_mem_keys.1 this
          rw [hp] at hnk
          exact hnk this
        · exact ⟨by simpa [mapGet, hp] using h1, h2⟩
  · intro h
    exact mapGet_filter_of_nodup hnd h.1 h.2

/-- Filtering by a key-only predicate `g` keeps exactly the keys
satisfying `g`. -/
theorem mapHas_filter_key {m : List (String × α)} {g : String → Bool}
    {k : String} :
    mapHas (m.filter (fun p => g p.1)) k = (mapHas m k && g k) := by
  induction m with
  | nil => simp [mapHas]
  | cons p t ih =>
    rw [List.filter_cons]
    by_cases hp : p.1 = k
    · subst hp
      by_cases hg : g p.1 = true
      · simp [hg, mapHas]
      · have hg' : g p.1 = false := by simpa using hg
        simp [hg', mapHas, ih]
    · by_cases hg : g p.1 = true
      · simp [hg, mapHas, hp, ih]
      · have hg' : g p.1 = false := by simpa using hg
        simp [hg', mapHas, hp, ih]

/-- A key all of whose entries survive a filter is still present after
filtering. -/
theorem mapHas_filter_of_all {m : List (String × α)} {f : String × α → Bool}
    {k : String} (hall : ∀ v, (k, v) ∈ m → f (k, v) = true)
    (h : mapHas m k = true) : mapHas (m.filter f) k = true := by
  rcases mapHas_iff_mapGet.1 h with ⟨v, hv⟩
  have hm : (k, v) ∈ m := mapGet_some_mem hv
  have hf : f (k, v) = true := hall v hm
  have : (k, v) ∈ m.filter f := List.mem_filter.2 ⟨hm, hf⟩
  exact mem_mapHas this

end MoreMapLemmas

/-! ## Properties of the store operations -/

theorem capLog_length {α : Type} (l : List α) : (capLog l).length ≤ 100 := by
  unfold capLog
  by_cases h : 100 < l.length
  · simp only [h, if_true, List.length_drop]
    omega
  · simp only [h, if_false]
    omega

/-- Unfolding `recordClick` on a known shortcode: it reports success,
bumps the click count, stamps the access time, and appends the capped
click event. -/
theorem recordClick_found (s : MemoryStore) (code : String) (m : ClickMeta)
    (now : Nat) (r : UrlRecord) (h : mapGet s.urls code = some r) :
    (recordClick s code m now).2 = true
    ∧ mapGet (recordClick s code m now).1.urls code
        = some { r with clickCount := r.clickCount + 1, lastAccessed := some now }
    ∧ mapGet (recordClick s code m now).1.analytics code
        = some (capLog ((mapGet s.analytics code).getD [] ++ [mkClickEvent m now]))
    ∧ (recordClick s code m now).1.cacheSize = s.cacheSize := by
  unfold recordClick
  rw [h]
  by_cases hc : mapHas s.cache code = true
  · simp only [hc, if_true]
    exact ⟨by simp, mapGet_set_self, mapGet_set_self, by simp⟩
  · have hc' : mapHas s.cache code = false := by simpa using hc
    simp only [hc', Bool.false_eq_true, if_false]
    exact ⟨by simp, mapGet_set_self, mapGet_set_self, by simp⟩

/-- After a sequence of clicks on a present shortcode, the record is
still present and its click count has grown by the number of clicks. -/
theorem recordClicks_clickCount (code : String) :
    ∀ (ms : List (ClickMeta × Nat)) (s : MemoryStore) (r : UrlRecord),
      mapGet s.urls code = some r →
      ∃ r', mapGet (recordClicks s code ms).urls code = some r'
        ∧ r'.clickCount = r.clickCount + ms.length := by
  intro ms
  induction ms with
  | nil =>
    intro s r h
    exact ⟨r, by simpa [recordClicks] using h, by simp⟩
  | cons m ms ih =>
    intro s r h
    have step := recordClick_found s code m.1 m.2 r h
    rcases ih _ _ step.2.1 with ⟨r', hr', hc⟩
    refine ⟨r', ?_, ?_⟩
    · simpa [recordClicks] using hr'
    · simp only at hc
      rw [hc]
      simp
      omega

/-- After a sequence of clicks on a present shortcode, the analytics
log is the fold of capped appends over the click events. -/
theorem recordClicks_analytics (code : String) :
    ∀ (ms : List (ClickMeta × Nat)) (s : MemoryStore) (r : UrlRecord)
      (l : List ClickEvent),
      mapGet s.urls code = some r → mapGet s.analytics code = some l →
      mapGet (recordClicks s code ms).analytics code
        = some (ms.foldl (fun acc m => capLog (acc ++ [mkClickEvent m.1 m.2])) l) := by
  intro ms
  induction ms with
  | nil =>
    intro s r l hu ha
    simpa [recordClicks] using ha
  | cons m ms ih =>
    intro s r l hu ha
    have step := recordClick_found s code m.1 m.2 r hu
    have ha' : mapGet (recordClick s code m.1 m.2).1.analytics code
        = some (capLog (l ++ [mkClickEvent m.1 m.2])) := by
      rw [step.2.2.1, ha]
      rfl
    have := ih (recordClick s code m.1 m.2).1 _ _ step.2.1 ha'
    simpa [recordClicks] using this

/-- Folding capped appends over events equals keeping the last 100 of
the fully appended log. -/
theorem foldl_capLog_eq (es : List ClickEvent) :
    ∀ l : List ClickEvent, l.length ≤ 100 →
      es.foldl (fun acc e => capLog (acc ++ [e])) l
        = (l ++ es).drop ((l ++ es).length - 100) := by
  induction es with
  | nil =>
    intro l h
    have : l.length - 100 = 0 := by omega
    simp [this]
  | cons e es ih =>
    intro l h
    simp only [List.foldl_cons]
    by_cases hlen : l.length < 100
    · have hcap : capLog (l ++ [e]) = l ++ [e] := by
        unfold capLog
        rw [if_neg]
        simp only [List.length_append, List.length_cons, List.length_nil]
        omega
      rw [hcap, ih (l ++ [e]) (by simp; omega)]
      simp [List.append_assoc]
    · have hl100 : l.length = 100 := by omega
      have hcap : capLog (l ++ [e]) = (l ++ [e]).drop 1 := by
        unfold capLog
        rw [if_pos]
        · congr 1
          simp only [List.length_append, List.length_cons, List.length_nil]
          omega
        · simp only [List.length_append, List.length_cons, List.length_nil]
          omega
      cases l with
      | nil => simp at hl100
      | cons a t =>
        have ht : t.length = 99 := by
          simpa using hl100
        rw [hcap]
        simp only [List.cons_append, List.drop_succ_cons, List.drop_zero]
        rw [ih (t ++ [e])
          (by simp only [List.length_append, List.length_cons,
                List.length_nil, ht]; omega)]
        have h1 : ((t ++ [e]) ++ es).length - 100 = es.length := by
          simp only [List.length_append, List.length_cons, List.length_nil, ht]
          omega
        have h2 : (a :: (t ++ e :: es)).length - 100 = es.length + 1 := by
          simp only [List.length_cons, List.length_append]
          omega
        rw [h1, h2, List.drop_succ_cons]
        simp [List.append_assoc]

/-! ## Preservation of the store invariant -/

theorem inv_initStore (t : Nat) : Inv (initStore t) := by
  constructor <;> simp [initStore, mapKeys, mapGet]

theorem inv_createUrl (s : MemoryStore) (code url desc : String)
    (expiresIn now : Nat) (h : Inv s) :
    Inv (createUrl s code url desc expiresIn now).1 := by
  unfold createUrl
  by_cases he : existsCode s code = true
  · rw [if_pos he]
    exact h
  · have he' : existsCode s code = false := by simpa using he
    rw [if_neg he]
    unfold storeUrl
    constructor
    · exact mapKeys_nodup_set h.urlsNodup
    · exact mapKeys_nodup_set h.analyticsNodup
    · exact h.cacheNodup
    · intro c r hc
      rcases h.cacheCons c r hc with ⟨u, hu, hex⟩
      by_cases hck : c = code
      · exfalso
        subst hck
        have : mapHas s.urls c = true := mapHas_of_mapGet hu
        rw [show mapHas s.urls c = existsCode s c from rfl, he'] at this
        exact absurd this (by simp)
      · exact ⟨u, by rw [mapGet_set_ne hck]; exact hu, hex⟩
    · intro c l hl
      by_cases hck : c = code
      · subst hck
        rw [mapGet_set_self] at hl
        cases hl
        simp
      · rw [mapGet_set_ne hck] at hl
        exact h.logBound c l hl

theorem inv_cacheDelete (s : MemoryStore) (code : String) (h : Inv s) :
    Inv { s with cache := mapDelete s.cache code } := by
  constructor
  · exact h.urlsNodup
  · exact h.analyticsNodup
  · exact mapKeys_delete_sublist.nodup h.cacheNodup
  · intro c r hc
    by_cases hck : c = code
    · subst hck
      rw [mapGet_delete_self] at hc
      exact absurd hc (by simp)
    · rw [mapGet_delete_ne hck] at hc
      exact h.cacheCons c r hc
  · exact h.logBound

theorem inv_addToCache (s : MemoryStore) (code : String) (r : UrlRecord)
    (h : Inv s) (hr : mapGet s.urls code = some r) :
    Inv (addToCache s code r) := by
  have key : ∀ c : List (String × UrlRecord), (mapKeys c).Nodup →
      (∀ c' rc, mapGet c c' = some rc →
        ∃ u, mapGet s.urls c' = some u ∧ u.expiresAt = rc.expiresAt) →
      Inv { s with cache := mapSet c code r } := by
    intro c hnd hcons
    constructor
    · exact h.urlsNodup
    · exact h.analyticsNodup
    · exact mapKeys_nodup_set hnd
    · intro c' rc hc
      by_cases hck : c' = code
      · subst hck
        rw [mapGet_set_self] at hc
        cases hc
        exact ⟨r, hr, rfl⟩
      · rw [mapGet_set_ne hck] at hc
        exact hcons c' rc hc
    · exact h.logBound
  unfold addToCache
  by_cases hs : s.cacheSize ≤ s.cache.length
  · rw [if_pos hs]
    cases hsc : s.cache with
    | nil =>
      dsimp only
      exact key [] (by simp [mapKeys])
        (by intro c' rc hc; simp [mapGet] at hc)
    | cons e t =>
      dsimp only
      have hnd : (mapKeys (e :: t)).Nodup := by
        have := h.cacheNodup
        rwa [hsc] at this
      refine key _ (mapKeys_delete_sublist.nodup hnd) ?_
      intro c' rc hc
      by_cases hck : c' = e.1
      · subst hck
        rw [mapGet_delete_self] at hc
        exact absurd hc (by simp)
      · rw [mapGet_delete_ne hck] at hc
        have := h.cacheCons c' rc
        rw [hsc] at this
        exact this hc
  · rw [if_neg hs]
    exact key s.cache h.cacheNodup h.cacheCons

theorem inv_getUrlFromRecord (s : MemoryStore) (code : String) (now : Nat)
    (h : Inv s) : Inv (getUrlFromRecord s code now).1 := by
  unfold getUrlFromRecord
  cases hu : mapGet s.urls code with
  | none => exact h
  | some record =>
    dsimp only
    by_cases hexp : record.expiresAt ≤ now
    · rw [if_pos hexp]
      constructor
      · exact mapKeys_nodup_set h.urlsNodup
      · exact h.analyticsNodup
      · exact h.cacheNodup
      · intro c r hc
        rcases h.cacheCons c r hc with ⟨u, hu', hex⟩
        by_cases hck : c = code
        · subst hck
          rw [hu] at hu'
          cases hu'
          exact ⟨{ record with isActive := false }, mapGet_set_self, hex⟩
        · exact ⟨u, by rw [mapGet_set_ne hck]; exact hu', hex⟩
      · exact h.logBound
    · rw [if_neg hexp]
      by_cases hcl : 5 < record.clickCount
      · rw [if_pos hcl]
        exact inv_addToCache s code record h hu
      · rw [if_neg hcl]
        exact h

theorem inv_getUrl (s : MemoryStore) (code : String) (now : Nat)
    (h : Inv s) : Inv (getUrl s code now).1 := by
  unfold getUrl
  cases hc : mapGet s.cache code with
  | none => exact inv_getUrlFromRecord s code now h
  | some cached =>
    dsimp only
    by_cases ht : now < cached.expiresAt
    · rw [if_pos ht]
      exact h
    · rw [if_neg ht]
      exact inv_getUrlFromRecord _ code now (inv_cacheDelete s code h)

theorem inv_recordClick (s : MemoryStore) (code : String) (m : ClickMeta)
    (now : Nat) (h : Inv s) : Inv (recordClick s code m now).1 := by
  unfold recordClick
  cases hu : mapGet s.urls code with
  | none => exact h
  | some record =>
    dsimp only
    by_cases hh : mapHas s.cache code = true
    · rw [if_pos hh]
      constructor
      · exact mapKeys_nodup_set h.urlsNodup
      · exact mapKeys_nodup_set h.analyticsNodup
      · exact mapKeys_nodup_set h.cacheNodup
      · intro c' rc hc
        by_cases hck : c' = code
        · subst hck
          rw [mapGet_set_self] at hc
          cases hc
          exact ⟨_, mapGet_set_self, rfl⟩
        · rw [mapGet_set_ne hck] at hc
          rcases h.cacheCons c' rc hc with ⟨u, hu', hex⟩
          exact ⟨u, by rw [mapGet_set_ne hck]; exact hu', hex⟩
      · intro c l hl
        by_cases hck : c = code
        · subst hck
          rw [mapGet_set_self] at hl
          cases hl
          exact capLog_length _
        · rw [mapGet_set_ne hck] at hl
          exact h.logBound c l hl
    · rw [if_neg hh]
      constructor
      · exact mapKeys_nodup_set h.urlsNodup
      · exact mapKeys_nodup_set h.analyticsNodup
      · exact h.cacheNodup
      · intro c' rc hc
        by_cases hck : c' = code
        · exfalso
          subst hck
          exact hh (mapHas_of_mapGet hc)
        · rcases h.cacheCons c' rc hc with ⟨u, hu', hex⟩
          exact ⟨u, by rw [mapGet_set_ne hck]; exact hu', hex⟩
      · intro c l hl
        by_cases hck : c = code
        · subst hck
          rw [mapGet_set_self] at hl
          cases hl
          exact capLog_length _
        · rw [mapGet_set_ne hck] at hl
          exact h.logBound c l hl

theorem inv_cleanup (s : MemoryStore) (now : Nat) (h : Inv s) :
    Inv (cleanupExpiredUrls s now).1 := by
  unfold cleanupExpiredUrls
  dsimp only
  constructor
  · exact mapKeys_filter_sublist.nodup h.urlsNodup
  · exact mapKeys_filter_sublist.nodup h.analyticsNodup
  · exact mapKeys_filter_sublist.nodup h.cacheNodup
  · intro c' rc hc
    rw [mapGet_filter_iff h.cacheNodup] at hc
    rcases hc with ⟨hc, hg⟩
    have hnc : c' ∉ (s.urls.filter
        (fun p => decide (p.2.expiresAt ≤ now))).map Prod.fst := by
      simpa using hg
    rcases h.cacheCons c' rc hc with ⟨u, hu, hex⟩
    have hlive : now < u.expiresAt := by
      by_contra hcon
      have hle : u.expiresAt ≤ now := by omega
      have hm : (c', u) ∈ s.urls := mapGet_some_mem hu
      have : (c', u) ∈ s.urls.filter (fun p => decide (p.2.expiresAt ≤ now)) :=
        List.mem_filter.2 ⟨hm, by simpa using hle⟩
      exact hnc (List.mem_map.2 ⟨(c', u), this, rfl⟩)
    refine ⟨u, ?_, hex⟩
    exact mapGet_filter_of_nodup h.urlsNodup hu (by simpa using hlive)
  · intro c l hl
    rw [mapGet_filter_iff h.analyticsNodup] at hl
    exact h.logBound c l hl.1

/-- Every reachable store state satisfies the internal invariant. -/
theorem inv_reachable : ∀ s, Reachable s → Inv s := by
  intro s h
  induction h with
  | init t => exact inv_initStore t
  | create s code url desc expiresIn now _ ih =>
    exact inv_createUrl s code url desc expiresIn now ih
  | get s code now _ ih => exact inv_getUrl s code now ih
  | click s code m now _ ih => exact inv_recordClick s code m now ih
  | sweep s now _ ih => exact inv_cleanup s now ih

/-- C1: the create operation (the `exists` pre-check plus `storeUrl`,
as the POST handler composes them for a caller-supplied shortcode)
fails exactly when the shortcode is already present; on any shortcode
not present it succeeds, returns the newly created record, and binds
the shortcode to that record. -/
theorem spec_C1_create (s : MemoryStore) (code url desc : String)
    (expiresIn now : Nat) :
    ((createUrl s code url desc expiresIn now).2.isOk = false
      ↔ existsCode s code = true)
    ∧ (existsCode s code = false →
        (createUrl s code url desc expiresIn now).2
            = Except.ok (mkRecord code url desc expiresIn now)
        ∧ mapGet (createUrl s code url desc expiresIn now).1.urls code
            = some (mkRecord code url desc expiresIn now)) := by
  constructor
  · by_cases h : existsCode s code = true
    · simp [createUrl, h, Except.isOk, Except.toBool]
    · have h' : existsCode s code = false := by simpa using h
      simp [createUrl, h', storeUrl, Except.isOk, Except.toBool]
  · intro h
    constructor
    · simp [createUrl, h, storeUrl]
    · simp only [createUrl, h, Bool.false_eq_true, if_false, storeUrl]
      exact mapGet_set_self

/-- Witness for C1: creating a fresh shortcode in a fresh store
succeeds and binds it. -/
theorem spec_C1_witness :
    (createUrl (initStore 0) "abc123" "https://x.com" "" 30 0).2
        = Except.ok (mkRecord "abc123" "https://x.com" "" 30 0)
    ∧ mapGet (createUrl (initStore 0) "abc123" "https://x.com" "" 30 0).1.urls
        "abc123" = some (mkRecord "abc123" "https://x.com" "" 30 0) :=
  (spec_C1_create (initStore 0) "abc123" "https://x.com" "" 30 0).2 (by decide)

/-- C6: `recordClick` on an unknown shortcode returns false with the
store unchanged; on a known shortcode (no expiry check is made) it
returns true, increments the click count, stamps the access time, and
appends the click event; N sequential clicks starting from count 0
yield count N. -/
theorem spec_C6_recordClick (s : MemoryStore) (code : String)
    (m : ClickMeta) (now : Nat) :
    (mapGet s.urls code = none → recordClick s code m now = (s, false))
    ∧ (∀ r, mapGet s.urls code = some r →
        (recordClick s code m now).2 = true
        ∧ mapGet (recordClick s code m now).1.urls code
            = some { r with clickCount := r.clickCount + 1,
                            lastAccessed := some now }
        ∧ mapGet (recordClick s code m now).1.analytics code
            = some (capLog ((mapGet s.analytics code).getD []
                ++ [mkClickEvent m now])))
    ∧ (∀ (ms : List (ClickMeta × Nat)) (r : UrlRecord),
        mapGet s.urls code = some r → r.clickCount = 0 →
        ∃ r', mapGet (recordClicks s code ms).urls code = some r'
          ∧ r'.clickCount = ms.length) := by
  refine ⟨?_, ?_, ?_⟩
  · intro h
    unfold recordClick
    rw [h]
  · intro r h
    have step := recordClick_found s code m now r h
    exact ⟨step.1, step.2.1, step.2.2.1⟩
  · intro ms r h hc
    rcases recordClicks_clickCount code ms s r h with ⟨r', hr', hcnt⟩
    exact ⟨r', hr', by rw [hcnt, hc, Nat.zero_add]⟩

/-- Witness for C6: on a record created with a 1-minute TTL, a click on
an unknown code mutates nothing, and three clicks at time 60000 (when
the record is already expired but unswept) are all counted. -/
theorem spec_C6_witness :
    recordClick ((createUrl (initStore 0) "abc" "https://x.com" "" 1 0).1)
        "zzz" { ip := none, userAgent := none, referer := none } 60000
      = ((createUrl (initStore 0) "abc" "https://x.com" "" 1 0).1, false)
    ∧ ∃ r', mapGet (recordClicks
          ((createUrl (initStore 0) "abc" "https://x.com" "" 1 0).1) "abc"
          (List.replicate 3
            ({ ip := none, userAgent := none, referer := none }, 60000))).urls
          "abc" = some r'
        ∧ r'.clickCount = (List.replicate 3
            (({ ip := none, userAgent := none, referer := none } : ClickMeta),
              (60000 : Nat))).length :=
  ⟨(spec_C6_recordClick ((createUrl (initStore 0) "abc" "https://x.com" "" 1 0).1)
      "zzz" { ip := none, userAgent := none, referer := none } 60000).1 (by decide),
   (spec_C6_recordClick ((createUrl (initStore 0) "abc" "https://x.com" "" 1 0).1)
      "abc" { ip := none, userAgent := none, referer := none } 60000).2.2
      (List.replicate 3 ({ ip := none, userAgent := none, referer := none }, 60000))
      (mkRecord "abc" "https://x.com" "" 1 0) (by decide) (by decide)⟩

section EvenMoreMapLemmas

variable {α : Type}

theorem mapHas_eq_false_iff {m : List (String × α)} {k : String} :
    mapHas m k = false ↔ k ∉ mapKeys m := by
  rw [← mapHas_eq_mem_keys]
  cases mapHas m k <;> simp

theorem mapHas_set_of_has {m : List (String × α)} {k k' : String} {v : α}
    (h : mapHas m k' = true) : mapHas (mapSet m k v) k' = true := by
  rw [mapHas_set, h, Bool.true_or]

theorem mapHas_delete_imp {m : List (String × α)} {k k' : String}
    (h : mapHas (mapDelete m k) k' = true) : mapHas m k' = true := by
  by_cases hk : k' = k
  · subst hk
    rcases mapHas_iff_mapGet.1 h with ⟨v, hv⟩
    rw [mapGet_delete_self] at hv
    exact absurd hv (by simp)
  · rcases mapHas_iff_mapGet.1 h with ⟨v, hv⟩
    rw [mapGet_delete_ne hk] at hv
    exact mapHas_of_mapGet hv

theorem mapDelete_of_not_has {m : List (String × α)} {k : String}
    (h : mapHas m k = false) : mapDelete m k = m := by
  induction m with
  | nil => rfl
  | cons p t ih =>
    have hp : ¬ p.1 = k := by
      intro e
      simp [mapHas, e] at h
    have ht : mapHas t k = false := by
      simp only [mapHas, decide_eq_false hp, Bool.false_or] at h
      exact h
    simp [mapDelete, hp, ih ht]

theorem mapSet_of_not_has {m : List (String × α)} {k : String} {v : α}
    (h : mapHas m k = false) : mapSet m k v = m ++ [(k, v)] := by
  induction m with
  | nil => rfl
  | cons p t ih =>
    have hp : ¬ p.1 = k := by
      intro e
      simp [mapHas, e] at h
    have ht : mapHas t k = false := by
      simp only [mapHas, decide_eq_false hp, Bool.false_or] at h
      exact h
    simp [mapSet, hp, ih ht]

end EvenMoreMapLemmas

/-! ## Cache-key inclusion (write-through discipline) -/

theorem cacheSubset_storeUrl (s : MemoryStore) (code url desc : String)
    (expiresIn now : Nat) (h : CacheSubset s) :
    CacheSubset (storeUrl s code url desc expiresIn now).1 := by
  intro c hc
  exact mapHas_set_of_has (h c hc)

theorem cacheSubset_addToCache (s : MemoryStore) (code : String)
    (r : UrlRecord) (h : CacheSubset s) (hr : mapHas s.urls code = true) :
    CacheSubset (addToCache s code r) := by
  intro c hc
  by_cases hck : c = code
  · subst hck
    exact hr
  · unfold addToCache at hc
    dsimp only at hc
    rcases mapHas_iff_mapGet.1 hc with ⟨v, hv⟩
    rw [mapGet_set_ne hck] at hv
    have hcc : mapHas s.cache c = true := by
      by_cases hs : s.cacheSize ≤ s.cache.length
      · rw [if_pos hs] at hv
        cases hsc : s.cache with
        | nil =>
          rw [hsc] at hv
          simp [mapGet] at hv
        | cons e t =>
          simp only [hsc] at hv
          exact mapHas_delete_imp (mapHas_of_mapGet hv)
      · rw [if_neg hs] at hv
        exact mapHas_of_mapGet hv
    exact h c hcc

theorem cacheSubset_getUrlFromRecord (s : MemoryStore) (code : String)
    (now : Nat) (h : CacheSubset s) :
    CacheSubset (getUrlFromRecord s code now).1 := by
  unfold getUrlFromRecord
  cases hu : mapGet s.urls code with
  | none => exact h
  | some record =>
    dsimp only
    by_cases hexp : record.expiresAt ≤ now
    · rw [if_pos hexp]
      intro c hc
      exact mapHas_set_of_has (h c hc)
    · rw [if_neg hexp]
      by_cases hcl : 5 < record.clickCount
      · rw [if_pos hcl]
        exact cacheSubset_addToCache s code record h (mapHas_of_mapGet hu)
      · rw [if_neg hcl]
        exact h

theorem cacheSubset_getUrl (s : MemoryStore) (code : String) (now : Nat)
    (h : CacheSubset s) : CacheSubset (getUrl s code now).1 := by
  unfold getUrl
  cases hc : mapGet s.cache code with
  | none => exact cacheSubset_getUrlFromRecord s code now h
  | some cached =>
    dsimp only
    by_cases ht : now < cached.expiresAt
    · rw [if_pos ht]
      exact h
    · rw [if_neg ht]
      refine cacheSubset_getUrlFromRecord _ code now ?_
      intro c hcc
      exact h c (mapHas_delete_imp hcc)

theorem cacheSubset_recordClick (s : MemoryStore) (code : String)
    (m : ClickMeta) (now : Nat) (h : CacheSubset s) :
    CacheSubset (recordClick s code m now).1 := by
  unfold recordClick
  cases hu : mapGet s.urls code with
  | none => exact h
  | some record =>
    dsimp only
    by_cases hh : mapHas s.cache code = true
    · rw [if_pos hh]
      intro c hc
      by_cases hck : c = code
      · subst hck
        exact mapHas_set_of_has (mapHas_of_mapGet hu)
      · rcases mapHas_iff_mapGet.1 hc with ⟨v, hv⟩
        rw [mapGet_set_ne hck] at hv
        exact mapHas_set_of_has (h c (mapHas_of_mapGet hv))
    · rw [if_neg hh]
      intro c hc
      exact mapHas_set_of_has (h c hc)

theorem cacheSubset_cleanup (s : MemoryStore) (now : Nat)
    (h : CacheSubset s) : CacheSubset (cleanupExpiredUrls s now).1 := by
  unfold cleanupExpiredUrls
  dsimp only
  intro c hc
  have hkey := @mapHas_filter_key UrlRecord s.cache
    (fun k => !((s.urls.filter
      (fun p => decide (p.2.expiresAt ≤ now))).map Prod.fst).contains k) c
  rw [hkey, Bool.and_eq_true] at hc
  have h1 : mapHas s.cache c = true := hc.1
  have h2 := hc.2
  have hnc : c ∉ (s.urls.filter
      (fun p => decide (p.2.expiresAt ≤ now))).map Prod.fst := by
    simpa using h2
  refine mapHas_filter_of_all ?_ (h c h1)
  intro v hv
  by_contra hcon
  have hle : v.expiresAt ≤ now := by
    simp only [decide_eq_true_eq] at hcon
    omega
  have : (c, v) ∈ s.urls.filter (fun p => decide (p.2.expiresAt ≤ now)) :=
    List.mem_filter.2 ⟨hv, by simpa using hle⟩
  exact hnc (List.mem_map.2 ⟨(c, v), this, rfl⟩)

theorem cacheSubset_reachable (s : MemoryStore) (h : Reachable s) :
    CacheSubset s := by
  induction h with
  | init t =>
    intro c hc
    simp [initStore, mapHas] at hc
  | create s code url desc expiresIn now _ ih =>
    unfold createUrl
    by_cases he : existsCode s code = true
    · rw [if_pos he]
      exact ih
    · rw [if_neg he]
      exact cacheSubset_storeUrl s code url desc expiresIn now ih
  | get s code now _ ih => exact cacheSubset_getUrl s code now ih
  | click s code m now _ ih => exact cacheSubset_recordClick s code m now ih
  | sweep s now _ ih => exact cacheSubset_cleanup s now ih

/-! ## FIFO eviction of the hot cache -/

/-- Inserting a fresh key into a full, well-formed cache evicts exactly
the first-inserted key and appends the new one. -/
theorem addToCache_evicts_head (s : MemoryStore) (code : String)
    (r : UrlRecord) (hfull : s.cacheSize ≤ s.cache.length)
    (hnd : (mapKeys s.cache).Nodup) (hnew : mapHas s.cache code = false) :
    mapKeys (addToCache s code r).cache
      = (mapKeys s.cache).drop 1 ++ [code] := by
  unfold addToCache
  dsimp only
  rw [if_pos hfull]
  cases hsc : s.cache with
  | nil => simp [mapSet, mapKeys]
  | cons e t =>
    rw [hsc] at hnd hnew
    dsimp only
    have hnodup : e.1 ∉ mapKeys t := by
      simp only [mapKeys, List.map_cons, List.nodup_cons] at hnd
      exact hnd.1
    have he1 : mapHas t e.1 = false := mapHas_eq_false_iff.2 hnodup
    have hdel : mapDelete (e :: t) e.1 = t := by
      have h1 : mapDelete (e :: t) e.1 = mapDelete t e.1 := by
        simp [mapDelete]
      rw [h1, mapDelete_of_not_has he1]
    have hnew' : mapHas t code = false := by
      simp only [mapHas, Bool.or_eq_false_iff] at hnew
      exact hnew.2
    rw [hdel, mapSet_of_not_has hnew']
    simp [mapKeys]

/-- Inserting fresh keys into a cache with room appends them in order
without evicting anything. -/
theorem addToCache_fill (r : UrlRecord) :
    ∀ (keys : List String) (s : MemoryStore),
      (mapKeys s.cache ++ keys).Nodup →
      s.cache.length + keys.length ≤ s.cacheSize →
      (keys.foldl (fun st k => addToCache st k r) s).cache
        = s.cache ++ keys.map (fun k => (k, r)) := by
  intro keys
  induction keys with
  | nil =>
    intro s _ _
    simp
  | cons k ks ih =>
    intro s hnd hlen
    have hnotfull : ¬ s.cacheSize ≤ s.cache.length := by
      simp only [List.length_cons] at hlen
      omega
    have hknotin : k ∉ mapKeys s.cache := by
      rcases List.nodup_append.1 hnd with ⟨_, _, hdisj⟩
      intro hk
      exact hdisj hk (List.mem_cons_self k ks)
    have hnew : mapHas s.cache k = false := mapHas_eq_false_iff.2 hknotin
    have hstep : (addToCache s k r).cache = s.cache ++ [(k, r)] := by
      unfold addToCache
      dsimp only
      rw [if_neg hnotfull, mapSet_of_not_has hnew]
    have hnd2 : (mapKeys (addToCache s k r).cache ++ ks).Nodup := by
      have hk : mapKeys (addToCache s k r).cache = mapKeys s.cache ++ [k] := by
        rw [hstep]
        simp [mapKeys]
      rw [hk, List.append_assoc]
      simpa using hnd
    have hlen2 : (addToCache s k r).cache.length + ks.length
        ≤ (addToCache s k r).cacheSize := by
      have hl : (addToCache s k r).cache.length = s.cache.length + 1 := by
        rw [hstep]
        simp
      have hsz : (addToCache s k r).cacheSize = s.cacheSize := rfl
      rw [hl, hsz]
      simp only [List.length_cons] at hlen
      omega
    have h2 := ih (addToCache s k r) hnd2 hlen2
    rw [List.foldl_cons, h2, hstep]
    simp [List.append_assoc]

theorem mapKeys_map_pair (r : UrlRecord) (ks : List String) :
    mapKeys (ks.map (fun k => (k, r))) = ks := by
  induction ks with
  | nil => rfl
  | cons k t ih =>
    simp only [List.map_cons, mapKeys] at ih ⊢
    rw [ih]

theorem foldl_addToCache_cacheSize (r : UrlRecord) :
    ∀ (keys : List String) (s : MemoryStore),
      (keys.foldl (fun st k => addToCache st k r) s).cacheSize = s.cacheSize := by
  intro keys
  induction keys with
  | nil => intro s; rfl
  | cons k ks ih =>
    intro s
    rw [List.foldl_cons]
    exact ih _

/-- Inserting capacity + 1 distinct keys into an empty cache of that
capacity leaves exactly all keys but the first, in insertion order. -/
theorem addToCache_scenario (cap : Nat) (keys : List String) (r : UrlRecord)
    (s : MemoryStore) (hc : s.cache = []) (hcap : s.cacheSize = cap)
    (h1 : 1 ≤ cap) (hnd : keys.Nodup) (hlen : keys.length = cap + 1) :
    mapKeys ((keys.foldl (fun st k => addToCache st k r) s).cache)
      = keys.drop 1 := by
  have hne : keys ≠ [] := by
    intro h
    rw [h] at hlen
    simp at hlen
  obtain ⟨ks, kl, hkeys⟩ : ∃ ks kl, keys = ks ++ [kl] :=
    ⟨keys.dropLast, keys.getLast hne, (List.dropLast_append_getLast hne).symm⟩
  subst hkeys
  have hkslen : ks.length = cap := by
    simp only [List.length_append, List.length_cons, List.length_nil] at hlen
    omega
  have hksnd : ks.Nodup := (List.nodup_append.1 hnd).1
  rw [List.foldl_append]
  simp only [List.foldl_cons, List.foldl_nil]
  have hfill := addToCache_fill r ks s
    (by rw [hc]; simpa [mapKeys] using hksnd)
    (by rw [hc, hcap]; simpa using Nat.le_of_eq hkslen)
  have hs1cache : (ks.foldl (fun st k => addToCache st k r) s).cache
      = ks.map (fun k => (k, r)) := by
    rw [hfill, hc]
    simp
  have hs1size : (ks.foldl (fun st k => addToCache st k r) s).cacheSize
      = cap := by
    rw [foldl_addToCache_cacheSize, hcap]
  have hkeys1 : mapKeys (ks.foldl (fun st k => addToCache st k r) s).cache
      = ks := by
    rw [hs1cache]
    exact mapKeys_map_pair r ks
  have hnd1 : (mapKeys (ks.foldl (fun st k => addToCache st k r) s).cache).Nodup := by
    rw [hkeys1]
    exact hksnd
  have hnew : mapHas (ks.foldl (fun st k => addToCache st k r) s).cache kl
      = false := by
    apply mapHas_eq_false_iff.2
    rw [hkeys1]
    rcases List.nodup_append.1 hnd with ⟨_, _, hdisj⟩
    intro hk
    exact hdisj hk (by simp)
  have hfull : (ks.foldl (fun st k => addToCache st k r) s).cacheSize
      ≤ (ks.foldl (fun st k => addToCache st k r) s).cache.length := by
    rw [hs1size, hs1cache]
    simp [hkslen]
  rw [addToCache_evicts_head _ kl r hfull hnd1 hnew, hkeys1]
  have hks0 : 1 ≤ ks.length := by omega
  exact (List.drop_append_of_le_length hks0).symm

/-- C10: every cache key is backed by a record-map key, in every
reachable state, and this inclusion is preserved by each of the store
operations individually. -/
theorem spec_C10_cache_subset :
    (∀ s, Reachable s → CacheSubset s)
    ∧ (∀ (s : MemoryStore) (code url desc : String) (expiresIn now : Nat),
        CacheSubset s → CacheSubset (storeUrl s code url desc expiresIn now).1)
    ∧ (∀ (s : MemoryStore) (code : String) (now : Nat),
        CacheSubset s → CacheSubset (getUrl s code now).1)
    ∧ (∀ (s : MemoryStore) (code : String) (m : ClickMeta) (now : Nat),
        CacheSubset s → CacheSubset (recordClick s code m now).1)
    ∧ (∀ (s : MemoryStore) (now : Nat),
        CacheSubset s → CacheSubset (cleanupExpiredUrls s now).1) :=
  ⟨cacheSubset_reachable, cacheSubset_storeUrl, cacheSubset_getUrl,
   cacheSubset_recordClick, cacheSubset_cleanup⟩

/-- Witness for C10: the inclusion holds in a fresh store and is kept
by a lookup on it. -/
theorem spec_C10_witness :
    CacheSubset (initStore 5) ∧ CacheSubset (getUrl (initStore 5) "abc" 0).1 :=
  ⟨spec_C10_cache_subset.1 (initStore 5) (Reachable.init 5),
   spec_C10_cache_subset.2.2.1 (initStore 5) "abc" 0
     (spec_C10_cache_subset.1 (initStore 5) (Reachable.init 5))⟩

/-- C8: the store is constructed with cache capacity 1000; whenever an
insertion happens with the cache at or above capacity, exactly the
single first-inserted key is evicted (reads never reorder the cache),
and inserting capacity + 1 distinct hot keys evicts exactly the
first-inserted key. -/
theorem spec_C8_cache_fifo :
    (∀ t, (initStore t).cacheSize = 1000)
    ∧ (∀ (s : MemoryStore) (code : String) (r : UrlRecord),
        s.cacheSize ≤ s.cache.length → (mapKeys s.cache).Nodup →
        mapHas s.cache code = false →
        mapKeys (addToCache s code r).cache
          = (mapKeys s.cache).drop 1 ++ [code])
    ∧ (∀ (cap : Nat) (keys : List String) (r : UrlRecord) (s : MemoryStore),
        s.cache = [] → s.cacheSize = cap → 1 ≤ cap →
        keys.Nodup → keys.length = cap + 1 →
        mapKeys ((keys.foldl (fun st k => addToCache st k r) s).cache)
          = keys.drop 1) :=
  ⟨fun _ => rfl,
   fun s code r hfull hnd hnew => addToCache_evicts_head s code r hfull hnd hnew,
   fun cap keys r s hc hcap h1 hnd hlen =>
     addToCache_scenario cap keys r s hc hcap h1 hnd hlen⟩

/-- Witness for C8: 1001 distinct keys (distinct lengths of a-runs)
inserted into the fresh store's empty capacity-1000 cache leave exactly
the 1000 last-inserted keys; and a capacity-1 cache evicts its only key
on the next fresh insertion. -/
theorem spec_C8_witness :
    mapKeys ((((List.range 1001).map
        (fun i => String.mk (List.replicate i 'a'))).foldl
        (fun st k => addToCache st k (mkRecord "r0" "u" "" 1 0))
        (initStore 0)).cache)
      = ((List.range 1001).map (fun i => String.mk (List.replicate i 'a'))).drop 1
    ∧ mapKeys (addToCache
        (MemoryStore.mk [] [] [("k1", mkRecord "k1" "u" "" 1 0)] 1 0 0 0 0)
        "k2" (mkRecord "k2" "u" "" 1 0)).cache
      = (mapKeys [("k1", mkRecord "k1" "u" "" 1 0)]).drop 1 ++ ["k2"] :=
  ⟨spec_C8_cache_fifo.2.2 1000
      ((List.range 1001).map (fun i => String.mk (List.replicate i 'a')))
      (mkRecord "r0" "u" "" 1 0) (initStore 0) rfl rfl (by decide)
      (by
        refine List.Nodup.map ?_ (List.nodup_range 1001)
        intro a b hab
        have := congrArg (fun st : String => st.data.length) hab
        simpa using this)
      (by simp),
   spec_C8_cache_fifo.2.1
      (MemoryStore.mk [] [] [("k1", mkRecord "k1" "u" "" 1 0)] 1 0 0 0 0)
      "k2" (mkRecord "k2" "u" "" 1 0) (by decide) (by decide) (by decide)⟩

/-- C7: in every reachable state every analytics log holds at most 100
events, and 150 clicks on a freshly created code leave exactly the 100
most recent events, in order. -/
theorem spec_C7_ring_buffer :
    (∀ s, Reachable s → ∀ code l,
      mapGet s.analytics code = some l → l.length ≤ 100)
    ∧ (∀ (s : MemoryStore) (code : String) (r : UrlRecord)
        (ms : List (ClickMeta × Nat)),
        mapGet s.urls code = some r → mapGet s.analytics code = some [] →
        ms.length = 150 →
        mapGet (recordClicks s code ms).analytics code
          = some ((ms.map (fun m => mkClickEvent m.1 m.2)).drop 50)) := by
  constructor
  · intro s hs code l hl
    exact (inv_reachable s hs).logBound code l hl
  · intro s code r ms hu ha hlen
    rw [recordClicks_analytics code ms s r [] hu ha]
    have h1 : ms.foldl (fun acc m => capLog (acc ++ [mkClickEvent m.1 m.2])) []
        = (ms.map (fun m => mkClickEvent m.1 m.2)).foldl
            (fun acc e => capLog (acc ++ [e])) [] := by
      rw [List.foldl_map]
    rw [h1, foldl_capLog_eq _ [] (by simp)]
    simp [hlen]

/-- Witness for C7: the bound holds for the empty log of a fresh
record, and 150 identical clicks leave the last 100 events. -/
theorem spec_C7_witness :
    ([] : List ClickEvent).length ≤ 100
    ∧ mapGet (recordClicks
        ((createUrl (initStore 0) "abc" "https://x.com" "" 1 0).1) "abc"
        (List.replicate 150
          (({ ip := none, userAgent := none, referer := none } : ClickMeta),
            (60000 : Nat)))).analytics "abc"
      = some (((List.replicate 150
          (({ ip := none, userAgent := none, referer := none } : ClickMeta),
            (60000 : Nat))).map (fun m => mkClickEvent m.1 m.2)).drop 50) :=
  ⟨spec_C7_ring_buffer.1 ((createUrl (initStore 0) "abc" "https://x.com" "" 1 0).1)
      (Reachable.create (initStore 0) "abc" "https://x.com" "" 1 0
        (Reachable.init 0)) "abc" [] (by decide),
   spec_C7_ring_buffer.2 ((createUrl (initStore 0) "abc" "https://x.com" "" 1 0).1)
      "abc" (mkRecord "abc" "https://x.com" "" 1 0)
      (List.replicate 150
        (({ ip := none, userAgent := none, referer := none } : ClickMeta),
          (60000 : Nat)))
      (by decide) (by decide) (by simp)⟩

/-! ## Behaviour of getUrl -/

theorem getUrlFromRecord_absent (s : MemoryStore) (code : String) (now : Nat)
    (hr : mapGet s.urls code = none) :
    getUrlFromRecord s code now = (s, none) := by
  unfold getUrlFromRecord
  rw [hr]

theorem getUrlFromRecord_expired (s : MemoryStore) (code : String) (now : Nat)
    (r : UrlRecord) (hr : mapGet s.urls code = some r)
    (hexp : r.expiresAt ≤ now) :
    getUrlFromRecord s code now
      = ({ s with urls := mapSet s.urls code { r with isActive := false } },
         none) := by
  unfold getUrlFromRecord
  rw [hr]
  dsimp only
  rw [if_pos hexp]

theorem getUrlFromRecord_live (s : MemoryStore) (code : String) (now : Nat)
    (r : UrlRecord) (hr : mapGet s.urls code = some r)
    (hexp : ¬ r.expiresAt ≤ now) :
    (getUrlFromRecord s code now).2 = some r := by
  unfold getUrlFromRecord
  rw [hr]
  dsimp only
  rw [if_neg hexp]
  by_cases hcl : 5 < r.clickCount
  · rw [if_pos hcl]
  · rw [if_neg hcl]

/-- In a well-formed store, `getUrl` answers absent exactly for codes
that are not in the record map or whose record is expired. -/
theorem getUrl_absent_iff (s : MemoryStore) (code : String) (now : Nat)
    (h : Inv s) :
    (getUrl s code now).2 = none ↔
      (mapGet s.urls code = none
        ∨ ∃ r, mapGet s.urls code = some r ∧ r.expiresAt ≤ now) := by
  unfold getUrl
  cases hc : mapGet s.cache code with
  | none =>
    dsimp only
    cases hu : mapGet s.urls code with
    | none =>
      rw [getUrlFromRecord_absent s code now hu]
      simp
    | some r =>
      by_cases hexp : r.expiresAt ≤ now
      · rw [getUrlFromRecord_expired s code now r hu hexp]
        constructor
        · intro _
          exact Or.inr ⟨r, rfl, hexp⟩
        · intro _
          rfl
      · have h2 := getUrlFromRecord_live s code now r hu hexp
        constructor
        · intro hn
          rw [h2] at hn
          exact absurd hn (by simp)
        · rintro (h1 | ⟨r', hr', hexp'⟩)
          · exact absurd h1 (by simp)
          · cases hr'
            exact absurd hexp' hexp
  | some cached =>
    dsimp only
    rcases h.cacheCons code cached hc with ⟨u, hu, hex⟩
    by_cases ht : now < cached.expiresAt
    · rw [if_pos ht]
      constructor
      · intro hn
        exact absurd hn (by simp)
      · rintro (h1 | ⟨r', hr', hexp'⟩)
        · rw [hu] at h1
          exact absurd h1 (by simp)
        · rw [hu] at hr'
          cases hr'
          exfalso
          rw [hex] at hexp'
          omega
    · rw [if_neg ht]
      have hexp : u.expiresAt ≤ now := by
        rw [hex]
        omega
      rw [getUrlFromRecord_expired { s with cache := mapDelete s.cache code }
        code now u hu hexp]
      constructor
      · intro _
        exact Or.inr ⟨u, hu, hexp⟩
      · intro _
        rfl

/-- In a well-formed store, looking up an expired-but-present code
lazily marks the stored record inactive and leaves the record and its
analytics log in place. -/
theorem getUrl_expired_marks (s : MemoryStore) (code : String) (now : Nat)
    (r : UrlRecord) (h : Inv s) (hr : mapGet s.urls code = some r)
    (hexp : r.expiresAt ≤ now) :
    mapGet (getUrl s code now).1.urls code = some { r with isActive := false }
    ∧ mapGet (getUrl s code now).1.analytics code = mapGet s.analytics code := by
  unfold getUrl
  cases hc : mapGet s.cache code with
  | none =>
    dsimp only
    rw [getUrlFromRecord_expired s code now r hr hexp]
    exact ⟨mapGet_set_self, rfl⟩
  | some cached =>
    dsimp only
    rcases h.cacheCons code cached hc with ⟨u, hu, hex⟩
    have huv : u = r := by
      rw [hr] at hu
      exact (Option.some.inj hu).symm
    subst huv
    have ht : ¬ now < cached.expiresAt := by
      rw [← hex]
      omega
    rw [if_neg ht]
    rw [getUrlFromRecord_expired { s with cache := mapDelete s.cache code }
      code now u hr hexp]
    exact ⟨mapGet_set_self, rfl⟩

/-- C5: in any reachable store state, `get` returns absent exactly when
the shortcode has no record in the store or its record's `expiresAt` is
at or before the current time; on the expired path it marks the stored
record inactive but leaves the record and its analytics event log in
the store. -/
theorem spec_C5_get (s : MemoryStore) (code : String) (now : Nat)
    (hs : Reachable s) :
    ((getUrl s code now).2 = none ↔
      (mapGet s.urls code = none
        ∨ ∃ r, mapGet s.urls code = some r ∧ r.expiresAt ≤ now))
    ∧ (∀ r, mapGet s.urls code = some r → r.expiresAt ≤ now →
        mapGet (getUrl s code now).1.urls code
          = some { r with isActive := false }
        ∧ mapGet (getUrl s code now).1.analytics code
          = mapGet s.analytics code) := by
  have h := inv_reachable s hs
  exact ⟨getUrl_absent_iff s code now h,
    fun r hr hexp => getUrl_expired_marks s code now r h hr hexp⟩

/-- Witness for C5: a record created at time 0 with a 1-minute TTL is
absent from `get` at time 60000, yet the (now inactive) record and its
empty analytics log are still stored. -/
theorem spec_C5_witness :
    (getUrl ((createUrl (initStore 0) "abc" "https://x.com" "" 1 0).1)
        "abc" 60000).2 = none
    ∧ mapGet (getUrl ((createUrl (initStore 0) "abc" "https://x.com" "" 1 0).1)
        "abc" 60000).1.urls "abc"
      = some { mkRecord "abc" "https://x.com" "" 1 0 with isActive := false } :=
  ⟨(spec_C5_get ((createUrl (initStore 0) "abc" "https://x.com" "" 1 0).1)
      "abc" 60000
      (Reachable.create (initStore 0) "abc" "https://x.com" "" 1 0
        (Reachable.init 0))).1.2
      (Or.inr ⟨mkRecord "abc" "https://x.com" "" 1 0, by decide, by decide⟩),
   ((spec_C5_get ((createUrl (initStore 0) "abc" "https://x.com" "" 1 0).1)
      "abc" 60000
      (Reachable.create (initStore 0) "abc" "https://x.com" "" 1 0
        (Reachable.init 0))).2
      (mkRecord "abc" "https://x.com" "" 1 0) (by decide) (by decide)).1⟩

/-- C9: in any reachable store state, an expired-but-unswept shortcode
still answers true to `exists` (which consults only key presence), even
though `get` answers absent at the same time; consequently a create
request supplying that shortcode is rejected as a conflict. -/
theorem spec_C9_expired_conflict (s : MemoryStore) (code : String)
    (r : UrlRecord) (now expiresIn : Nat) (url desc : String)
    (hs : Reachable s) (hr : mapGet s.urls code = some r)
    (hexp : r.expiresAt ≤ now) :
    existsCode s code = true
    ∧ (getUrl s code now).2 = none
    ∧ createUrl s code url desc expiresIn now
        = (s, Except.error "Shortcode is already taken") := by
  have h := inv_reachable s hs
  have he : existsCode s code = true := mapHas_of_mapGet hr
  refine ⟨he, ?_, ?_⟩
  · exact (getUrl_absent_iff s code now h).2 (Or.inr ⟨r, hr, hexp⟩)
  · unfold createUrl
    rw [if_pos he]

/-- Witness for C9: the expired record from the C5 scenario still
blocks re-creation of its shortcode while no longer resolving. -/
theorem spec_C9_witness :
    existsCode ((createUrl (initStore 0) "abc" "https://x.com" "" 1 0).1)
      "abc" = true
    ∧ (getUrl ((createUrl (initStore 0) "abc" "https://x.com" "" 1 0).1)
        "abc" 60000).2 = none
    ∧ createUrl ((createUrl (initStore 0) "abc" "https://x.com" "" 1 0).1)
        "abc" "https://y.com" "" 5 60000
      = ((createUrl (initStore 0) "abc" "https://x.com" "" 1 0).1,
         Except.error "Shortcode is already taken") :=
  spec_C9_expired_conflict
    ((createUrl (initStore 0) "abc" "https://x.com" "" 1 0).1) "abc"
    (mkRecord "abc" "https://x.com" "" 1 0) 60000 5 "https://y.com" ""
    (Reachable.create (initStore 0) "abc" "https://x.com" "" 1 0
      (Reachable.init 0))
    (by decide) (by decide)

/-- C2 counterexample: within one run, the shortcode "abc" is created,
swept after expiry, and then successfully created again bound to a
different record, so shortcode lifetime-uniqueness does not hold. -/
theorem spec_C2_cex :
    Reachable ((createUrl ((cleanupExpiredUrls
        ((createUrl (initStore 0) "abc" "https://a.example" "" 1 0).1)
        60000).1) "abc" "https://b.example" "" 1 60000).1)
    ∧ mapGet ((createUrl (initStore 0) "abc" "https://a.example" "" 1 0).1).urls
        "abc" = some (mkRecord "abc" "https://a.example" "" 1 0)
    ∧ mapGet ((createUrl ((cleanupExpiredUrls
        ((createUrl (initStore 0) "abc" "https://a.example" "" 1 0).1)
        60000).1) "abc" "https://b.example" "" 1 60000).1).urls "abc"
        = some (mkRecord "abc" "https://b.example" "" 1 60000)
    ∧ mkRecord "abc" "https://b.example" "" 1 60000
        ≠ mkRecord "abc" "https://a.example" "" 1 0 :=
  ⟨Reachable.create _ "abc" "https://b.example" "" 1 60000
      (Reachable.sweep _ 60000
        (Reachable.create (initStore 0) "abc" "https://a.example" "" 1 0
          (Reachable.init 0))),
   by decide, by decide, by decide⟩

/-- C2 amended: within one process run, a shortcode is bound to at most
one record at any time, and while a shortcode is present the create
operation refuses to rebind it; but after the sweeper deletes an expired
record, the same shortcode can be re-allocated to a new record. -/
theorem spec_C2_unique_while_present :
    (∀ s, Reachable s → (mapKeys s.urls).Nodup)
    ∧ (∀ (s : MemoryStore) (code url desc : String) (expiresIn now : Nat),
        existsCode s code = true →
        createUrl s code url desc expiresIn now
          = (s, Except.error "Shortcode is already taken")) := by
  constructor
  · intro s hs
    exact (inv_reachable s hs).urlsNodup
  · intro s code url desc expiresIn now he
    unfold createUrl
    rw [if_pos he]

/-- Witness for C2 (amended): one creation yields duplicate-free keys,
and re-creating the still-present shortcode is refused. -/
theorem spec_C2_witness :
    (mapKeys ((createUrl (initStore 0) "abc" "https://a.example" "" 1 0).1).urls).Nodup
    ∧ createUrl ((createUrl (initStore 0) "abc" "https://a.example" "" 1 0).1)
        "abc" "https://b.example" "" 1 0
      = ((createUrl (initStore 0) "abc" "https://a.example" "" 1 0).1,
         Except.error "Shortcode is already taken") :=
  ⟨spec_C2_unique_while_present.1 _
      (Reachable.create (initStore 0) "abc" "https://a.example" "" 1 0
        (Reachable.init 0)),
   spec_C2_unique_while_present.2
      ((createUrl (initStore 0) "abc" "https://a.example" "" 1 0).1)
      "abc" "https://b.example" "" 1 0 (by decide)⟩

/-! ## Properties of the generator -/

/-- A default element of a list is a member of it, whatever the index. -/
theorem getD_mem {l : List Char} {d : Char} (hd : d ∈ l) (n : Nat) :
    l.getD n d ∈ l := by
  rw [List.getD_eq_get?]
  cases h : l.get? n with
  | none => simpa using hd
  | some a => simpa using List.get?_mem h

/-- If attempts `a ≤ i ≤ N` all collide and attempt `N + 1` does not,
the retry loop started at attempt `a` stops at attempt `N + 1`. -/
theorem generateGo_success (draw : Nat → String) (fb : String)
    (p : String → Bool) (maxAttempts N : Nat) (hN : N < maxAttempts)
    (hcol : ∀ i, i < N → p (draw (i + 1)) = true)
    (hok : p (draw (N + 1)) = false) :
    ∀ k a, 1 ≤ a → a ≤ N + 1 → N + 1 - a = k →
      generateGo draw fb p maxAttempts a = (draw (N + 1), N + 1) := by
  intro k
  induction k with
  | zero =>
    intro a ha1 haN hk
    have ha : a = N + 1 := by omega
    subst ha
    rw [generateGo]
    simp [hok]
  | succ k ih =>
    intro a ha1 haN hk
    have hpa : p (draw a) = true := by
      have := hcol (a - 1) (by omega)
      have ha : a - 1 + 1 = a := by omega
      rwa [ha] at this
    have hlt : ¬ maxAttempts ≤ a := by omega
    rw [generateGo]
    simp only [hpa, hlt, if_false]
    exact ih (a + 1) (by omega) (by omega) (by omega)

/-- If every attempt up to `maxAttempts` collides, the retry loop
started at attempt `a` falls back after attempt `maxAttempts`. -/
theorem generateGo_fallback (draw : Nat → String) (fb : String)
    (p : String → Bool) (maxAttempts : Nat)
    (hcol : ∀ i, i < maxAttempts → p (draw (i + 1)) = true) :
    ∀ k a, 1 ≤ a → a ≤ maxAttempts → maxAttempts - a = k →
      generateGo draw fb p maxAttempts a = (fb, maxAttempts) := by
  intro k
  induction k with
  | zero =>
    intro a ha1 haM hk
    have ha : a = maxAttempts := by omega
    subst ha
    have hpa : p (draw a) = true := by
      have := hcol (a - 1) (by omega)
      have he : a - 1 + 1 = a := by omega
      rwa [he] at this
    rw [generateGo]
    simp [hpa]
  | succ k ih =>
    intro a ha1 haM hk
    have hpa : p (draw a) = true := by
      have := hcol (a - 1) (by omega)
      have he : a - 1 + 1 = a := by omega
      rwa [he] at this
    have hlt : ¬ maxAttempts ≤ a := by omega
    rw [generateGo]
    simp only [hpa, hlt, if_false]
    exact ih (a + 1) (by omega) (by omega) (by omega)

/-- C4: with an existence predicate that holds for the first N
candidates (N < maxAttempts) and fails on candidate N + 1, `generate`
returns the first non-colliding candidate having consulted the
predicate exactly N + 1 times; and when all `maxAttempts` candidates
collide it returns the single widened fallback draw, having consulted
the predicate exactly `maxAttempts` times and never on the fallback. -/
theorem spec_C4_generate_retry (draw : Nat → String) (fb : String)
    (p : String → Bool) (maxAttempts N : Nat) :
    ((∀ i, i < N → p (draw (i + 1)) = true) → p (draw (N + 1)) = false →
      N < maxAttempts →
      generate draw fb (some p) maxAttempts = (draw (N + 1), N + 1))
    ∧ ((∀ i, i < maxAttempts → p (draw (i + 1)) = true) → 1 ≤ maxAttempts →
      generate draw fb (some p) maxAttempts = (fb, maxAttempts)) := by
  constructor
  · intro hcol hok hN
    unfold generate
    exact generateGo_success draw fb p maxAttempts N hN hcol hok N 1
      (by omega) (by omega) (by omega)
  · intro hcol hM
    unfold generate
    exact generateGo_fallback draw fb p maxAttempts hcol (maxAttempts - 1) 1
      (by omega) (by omega) (by omega)

/-- Witness for C4: a predicate colliding on exactly the candidates
"1" and "2" lets the third candidate through after three checks, and an
always-colliding predicate forces the fallback after `maxAttempts = 3`
checks. -/
theorem spec_C4_witness :
    generate (fun n => toString n) "FALLBACK"
      (some (fun c => c == "1" || c == "2")) 10 = (toString 3, 3)
    ∧ generate (fun n => toString n) "FALLBACK"
      (some (fun _ => true)) 3 = ("FALLBACK", 3) :=
  ⟨(spec_C4_generate_retry (fun n => toString n) "FALLBACK"
      (fun c => c == "1" || c == "2") 10 2).1
      (by decide) (by decide) (by decide),
   (spec_C4_generate_retry (fun n => toString n) "FALLBACK"
      (fun _ => true) 3 3).2 (by decide) (by decide)⟩

/-- C3 counterexample: the source's readable character set has 56
characters, not 57; it also drops the lowercase letter o, which the
claimed exclusion list 0, O, 1, l, I does not mention. -/
theorem spec_C3_cex :
    readableCharset.length = 56
    ∧ specReadableCharset.length = 57
    ∧ readableCharset ≠ specReadableCharset
    ∧ ('o' ∈ specReadableCharset.data ∧ 'o' ∉ readableCharset.data) := by
  refine ⟨by decide, by decide, by decide, by decide, by decide⟩

/-- C3 amended: the readable variant is the 56-character set obtained
from the 62-character alphanumeric set by excluding the six visually
ambiguous characters 0, O, o, 1, l, I; every code drawn under the
readable variant uses only characters of that set. -/
theorem spec_C3_readable_charset :
    readableCharset.data
      = charset.data.filter (fun c => !(['0', 'O', 'o', '1', 'l', 'I'].contains c))
    ∧ readableCharset.length = 56
    ∧ ∀ (r : Nat → Nat) (len : Nat) (c : Char),
        c ∈ (generateRandom r len true).data → c ∈ readableCharset.data := by
  refine ⟨by decide, by decide, ?_⟩
  intro r len c hc
  simp only [generateRandom, if_true, List.mem_map] at hc
  rcases hc with ⟨i, _, hi⟩
  rw [← hi]
  exact getD_mem (by decide) _

/-- Witness for C3 (amended): a one-character draw lands inside the
readable character set. -/
theorem spec_C3_witness :
    'b' ∈ (generateRandom (fun _ => 1) 1 true).data
    ∧ 'b' ∈ readableCharset.data :=
  ⟨by decide, spec_C3_readable_charset.2.2 (fun _ => 1) 1 'b' (by decide)⟩

end QuickLink
